import Mathlib

/-!
Verification development for the DRD taxonomy parser (parse_drd.py).

The parser reads a text buffer, locates "Area <digit><letter>. <name>" and
"Level <num>. <title>" headers with two regular expressions, slices the
buffer into spans between consecutive headers, and assembles a list of Axis
entries (deduplicated by numeric id, first-seen order), each holding Areas,
each holding Levels with whitespace-normalized descriptions.

The buffer is modelled as a list of characters.  The two regular
expressions, being fixed literal patterns, are translated into explicit
matching functions with the greedy leftmost semantics of re.finditer.
Whitespace is the six ASCII whitespace characters (the fragment of the
regex class used by the data this program processes).
-/

/-- The character class of the regex token for whitespace,
restricted to ASCII: space, tab, newline, carriage return,
vertical tab, form feed. -/
def isSpaceCh (c : Char) : Bool :=
  c = ' ' || c = '\t' || c = '\n' || c = '\r' || c = '\x0b' || c = '\x0c'

/-- Python sliceBuf content[a:b] on a character list. -/
def sliceBuf (s : List Char) (a b : Nat) : List Char :=
  (s.drop a).take (b - a)

/-- Decimal digit string to number, as Python int() on a digit group. -/
def digitsToNat (ds : List Char) : Nat :=
  ds.foldl (fun a c => a * 10 + (c.toNat - 48)) 0

/-- Level record: { "level": int, "title": str, "description": str }. -/
structure Level where
  level : Nat
  title : List Char
  description : List Char
deriving DecidableEq, Repr

/-- Area record: { "id": str, "name": str, "levels": list }. -/
structure Area where
  id : List Char
  name : List Char
  levels : List Level
deriving DecidableEq, Repr

/-- Axis record: { "id": int, "name": str, "areas": list }. -/
structure Axis where
  id : Nat
  name : List Char
  areas : List Area
deriving DecidableEq, Repr

/-- A match of the outer (Area) header pattern, with its start and end
offsets in the buffer and the three captured groups (the single digit is
already converted to a number). -/
structure AreaM where
  start : Nat
  stop : Nat
  axisNum : Nat
  letter : Char
  name : List Char
deriving DecidableEq, Repr

/-- A match of the inner (Level) header pattern. -/
structure LevelM where
  start : Nat
  stop : Nat
  num : Nat
  title : List Char
deriving DecidableEq, Repr

/-- Attempt to match the Area header pattern at the head of the suffix:
the literal word and space, one digit, one ASCII uppercase letter, a
period, then a greedy whitespace run, then everything up to end of line.
Returns the captured groups and the number of consumed characters. -/
def tryAreaMatch : List Char → Option ((Nat × Char × List Char) × Nat)
  | 'A' :: 'r' :: 'e' :: 'a' :: ' ' :: d :: u :: '.' :: rest =>
    if d.isDigit && u.isUpper then
      let ws := rest.takeWhile isSpaceCh
      let nm := (rest.drop ws.length).takeWhile (fun c => c ≠ '\n')
      some ((d.toNat - 48, u, nm), 8 + ws.length + nm.length)
    else none
  | _ => none

/-- Attempt to match the Level header pattern at the head of the suffix:
the literal word, a whitespace run, one or more digits, a whitespace run,
a period, a whitespace run, then everything up to end of line. -/
def tryLevelMatch (s : List Char) : Option ((Nat × List Char) × Nat) :=
  match s with
  | 'L' :: 'e' :: 'v' :: 'e' :: 'l' :: rest =>
    let ws1 := rest.takeWhile isSpaceCh
    let r1 := rest.drop ws1.length
    let ds := r1.takeWhile Char.isDigit
    if ds.isEmpty then none
    else
      let r2 := r1.drop ds.length
      let ws2 := r2.takeWhile isSpaceCh
      match r2.drop ws2.length with
      | '.' :: r4 =>
        let ws3 := r4.takeWhile isSpaceCh
        let ti := (r4.drop ws3.length).takeWhile (fun c => c ≠ '\n')
        some ((digitsToNat ds, ti),
          5 + ws1.length + ds.length + ws2.length + 1 + ws3.length + ti.length)
      | _ => none
  | _ => none

/-- The scanning loop of re.finditer: at each position try the pattern;
on a match, record it with its offsets and resume right after it,
otherwise advance one character.  Fuel (the remaining suffix length at the
start) makes the recursion structural. -/
def finditerAux {α : Type} (tryM : List Char → Option (α × Nat)) :
    Nat → List Char → Nat → List (α × Nat × Nat)
  | 0, _, _ => []
  | _ + 1, [], _ => []
  | fuel + 1, c :: rest, pos =>
    match tryM (c :: rest) with
    | some (r, len) =>
      (r, pos, pos + len) :: finditerAux tryM fuel ((c :: rest).drop len) (pos + len)
    | none => finditerAux tryM fuel rest (pos + 1)

/-- area_matches = list(area_pattern.finditer(content)). -/
def findAreaMatches (content : List Char) : List AreaM :=
  (finditerAux tryAreaMatch content.length content 0).map
    (fun r => ⟨r.2.1, r.2.2, r.1.1, r.1.2.1, r.1.2.2⟩)

/-- level_matches = list(level_pattern.finditer(area_text)). -/
def findLevelMatches (t : List Char) : List LevelM :=
  (finditerAux tryLevelMatch t.length t 0).map
    (fun r => ⟨r.2.1, r.2.2, r.1.1, r.1.2⟩)

/-- The span computation shared by both grains: the span of a match runs
from its end offset to the start offset of the next match, and for the
last match to the end of the enclosing buffer. -/
def segmentSpans (bufLen : Nat) : List (Nat × Nat) → List (Nat × Nat)
  | [] => []
  | m :: rest => (m.2, ((rest.head?.map Prod.fst).getD bufLen)) :: segmentSpans bufLen rest

/-- The (start, stop) offset pairs of the outer matches of a buffer. -/
def areaPos (content : List Char) : List (Nat × Nat) :=
  (findAreaMatches content).map (fun m => (m.start, m.stop))

/-- The (start, stop) offset pairs of the inner matches of a span. -/
def levelPos (t : List Char) : List (Nat × Nat) :=
  (findLevelMatches t).map (fun m => (m.start, m.stop))

/-- str.replace of newline by space. -/
def replaceNl (s : List Char) : List Char :=
  s.map (fun c => if c = '\n' then ' ' else c)

/-- Python str.strip(): drop whitespace from both ends. -/
def strip (s : List Char) : List Char :=
  ((s.dropWhile isSpaceCh).reverse.dropWhile isSpaceCh).reverse

/-- re.sub collapsing every whitespace run to a single space: the flag
records whether the previous character was whitespace. -/
def collapseAux : Bool → List Char → List Char
  | _, [] => []
  | prevWs, c :: rest =>
    if isSpaceCh c then
      if prevWs then collapseAux true rest
      else ' ' :: collapseAux true rest
    else c :: collapseAux false rest

/-- The description normalization applied to each Level span:
replace newlines by spaces, strip, collapse whitespace runs. -/
def normalizeDesc (s : List Char) : List Char :=
  collapseAux false (strip (replaceNl s))

/-- The inner loop of parse_drd_content: locate Level headers in an Area
span, segmentSpans it, and build the Level records. -/
def parseLevels (area_text : List Char) : List Level :=
  ((findLevelMatches area_text).zip (segmentSpans area_text.length (levelPos area_text))).map
    (fun p =>
      { level := p.1.num
        title := strip p.1.title
        description := normalizeDesc (sliceBuf area_text p.2.1 p.2.2) })

/-- The per-match work of the outer loop: each outer match, paired with
its span, yields the axis number and the Area record built from the
captured groups and the segmented Levels. -/
def areaEntries (content : List Char) : List (Nat × Area) :=
  ((findAreaMatches content).zip (segmentSpans content.length (areaPos content))).map
    (fun p =>
      (p.1.axisNum,
        { id := (toString p.1.axisNum).data ++ [p.1.letter]
          name := strip p.1.name
          levels := parseLevels (sliceBuf content p.2.1 p.2.2) }))

/-- The Axis-dedup step: look for the first existing Axis entry with this
numeric id and append the Area to it; if none exists, append a fresh Axis
with a placeholder name at the end of the list. -/
def appendToAxis (axis_num : Nat) (area : Area) : List Axis → List Axis
  | [] => [{ id := axis_num, name := (r"Axis " ++ toString axis_num).data, areas := [area] }]
  | x :: xs =>
    if x.id = axis_num then { x with areas := x.areas ++ [area] } :: xs
    else x :: appendToAxis axis_num area xs

/-- parse_drd_content on an in-memory buffer: fold the outer matches into
the deduplicated Axis list. -/
def parse_drd_content (content : List Char) : List Axis :=
  (areaEntries content).foldl (fun drd_data p => appendToAxis p.1 p.2 drd_data) []

/-- The static axis-id to canonical-name table of the program. -/
def axis_names : List (Nat × List Char) :=
  [(1, r"Digital Processes".data),
   (2, r"Digital Products".data),
   (3, r"Digital Business Models".data),
   (4, r"Data Management".data),
   (5, r"Digital Culture".data),
   (6, r"Cybersecurity".data),
   (7, r"Artificial Intelligence".data)]

/-- The Name Enricher loop: overwrite the name of each Axis whose id is
present in the mapping; leave every other field and every unmapped Axis
unchanged. -/
def applyAxisNames (names : List (Nat × List Char)) (data : List Axis) : List Axis :=
  data.map (fun axis =>
    match names.lookup axis.id with
    | some n => { axis with name := n }
    | none => axis)

/-- First occurrence of the first matching Axis entry, as the generator
expression in the source. -/
def findAxis (k : Nat) (d : List Axis) : Option Axis :=
  d.find? (fun x => x.id == k)

/-- Distinct elements in first-occurrence order, relative to an
already-seen set. -/
def firstDedupFrom (seen : List Nat) : List Nat → List Nat
  | [] => []
  | x :: xs => if x ∈ seen then firstDedupFrom seen xs else x :: firstDedupFrom (x :: seen) xs

/-- Distinct elements of a list in first-occurrence order. -/
def firstDedup (l : List Nat) : List Nat :=
  firstDedupFrom [] l

/-- A buffer with two Area headers, used to exhibit the gap between
consecutive segmented spans. -/
def cexBuf : List Char := "Area 1A. X\nArea 2B. Y".data

/-- A small buffer with one Area and one Level, used as a concrete
evaluation point. -/
def wbuf : List Char := "Area 1A. N\nLevel 1. T\nx".data

/-- The Level that parsing wbuf produces. -/
def wlv : Level := { level := 1, title := "T".data, description := "x".data }

/-- The Area that parsing wbuf produces. -/
def war : Area := { id := "1A".data, name := "N".data, levels := [wlv] }

/-- The Axis that parsing wbuf produces. -/
def wax : Axis := { id := 1, name := "Axis 1".data, areas := [war] }

/-- The concrete scenario buffer of the specification. -/
def c1Buf : List Char :=
  "Area 1A. Processes\nLevel 1. Basic\nsome text\nLevel 2. Advanced\nmore text\nArea 1B. Other\nLevel 1. X\ntext".data

/-- A buffer containing no Area header. -/
def noHeaderBuf : List Char := "no headers here".data

/-- A span containing no Level header. -/
def noLevelText : List Char := "plain area text".data

/-- A one-entry id-to-name mapping for exercising the Name Enricher. -/
def c8names : List (Nat × List Char) := [(1, r"Mapped".data)]

theorem segmentSpans_length (L : Nat) (ms : List (Nat × Nat)) :
    (segmentSpans L ms).length = ms.length := by
  induction ms with
  | nil => rfl
  | cons m rest ih => simp [segmentSpans, ih]

theorem takeWhileLenLe (p : Char → Bool) (l : List Char) :
    (l.takeWhile p).length ≤ l.length :=
  List.IsPrefix.length_le (List.takeWhile_prefix p)

theorem tryAreaMatch_len (s : List Char) (r : Nat × Char × List Char) (len : Nat)
    (h : tryAreaMatch s = some (r, len)) : 8 ≤ len ∧ len ≤ s.length := by
  unfold tryAreaMatch at h
  split at h
  case h_2 => exact absurd h (by simp)
  case h_1 d u rest =>
    split at h
    case isFalse => exact absurd h (by simp)
    case isTrue =>
      simp only [Option.some.injEq, Prod.mk.injEq] at h
      obtain ⟨-, hlen⟩ := h
      have h1 : (rest.takeWhile isSpaceCh).length ≤ rest.length :=
        takeWhileLenLe _ _
      have h2 : ((rest.drop (rest.takeWhile isSpaceCh).length).takeWhile
          (fun c => decide (c ≠ '\n'))).length ≤
          (rest.drop (rest.takeWhile isSpaceCh).length).length :=
        takeWhileLenLe _ _
      have h3 : (rest.drop (rest.takeWhile isSpaceCh).length).length =
          rest.length - (rest.takeWhile isSpaceCh).length := List.length_drop _ _
      simp only [List.length_cons]
      omega

theorem tryLevelMatch_len (s : List Char) (r : Nat × List Char) (len : Nat)
    (h : tryLevelMatch s = some (r, len)) : 6 ≤ len ∧ len ≤ s.length := by
  simp only [tryLevelMatch] at h
  split at h
  case h_2 => exact absurd h (by simp)
  case h_1 rest =>
    split at h
    case isTrue => exact absurd h (by simp)
    case isFalse =>
      split at h
      case h_2 => exact absurd h (by simp)
      case h_1 r4 heq =>
        simp only [Option.some.injEq, Prod.mk.injEq] at h
        obtain ⟨-, hlen⟩ := h
        have h1 : (rest.takeWhile isSpaceCh).length ≤ rest.length :=
          takeWhileLenLe _ _
        have h2 : ((rest.drop (rest.takeWhile isSpaceCh).length).takeWhile
            Char.isDigit).length ≤ (rest.drop (rest.takeWhile isSpaceCh).length).length :=
          takeWhileLenLe _ _
        have h3 : (rest.drop (rest.takeWhile isSpaceCh).length).length =
            rest.length - (rest.takeWhile isSpaceCh).length := List.length_drop _ _
        have h4 := congrArg List.length heq
        simp only [List.length_drop, List.length_cons] at h4
        have h5 : (r4.takeWhile isSpaceCh).length ≤ r4.length :=
          takeWhileLenLe _ _
        have h6 : ((r4.drop (r4.takeWhile isSpaceCh).length).takeWhile
            (fun c => decide (c ≠ '\n'))).length ≤
            (r4.drop (r4.takeWhile isSpaceCh).length).length :=
          takeWhileLenLe _ _
        have h7 : (r4.drop (r4.takeWhile isSpaceCh).length).length =
            r4.length - (r4.takeWhile isSpaceCh).length := List.length_drop _ _
        simp only [List.length_cons]
        omega

theorem finditerAux_bounds {α : Type} (tryM : List Char → Option (α × Nat))
    (htry : ∀ s r len, tryM s = some (r, len) → len ≤ s.length) :
    ∀ (fuel : Nat) (s : List Char) (pos : Nat),
      ∀ x ∈ finditerAux tryM fuel s pos,
        pos ≤ x.2.1 ∧ x.2.1 ≤ x.2.2 ∧ x.2.2 ≤ pos + s.length := by
  intro fuel
  induction fuel with
  | zero => intro s pos x hx; simp [finditerAux] at hx
  | succ n ih =>
    intro s pos x hx
    cases s with
    | nil => simp [finditerAux] at hx
    | cons c rest =>
      rcases htm : tryM (c :: rest) with - | ⟨r, len⟩
      · rw [finditerAux, htm] at hx
        have := ih rest (pos + 1) x hx
        simp only [List.length_cons]
        omega
      · rw [finditerAux, htm] at hx
        have hl := htry (c :: rest) r len htm
        rcases List.mem_cons.mp hx with hx | hx
        · subst hx
          simp only [List.length_cons] at hl ⊢
          omega
        · have := ih ((c :: rest).drop len) (pos + len) x hx
          simp only [List.length_drop, List.length_cons] at this hl ⊢
          omega

theorem finditerAux_chain {α : Type} (tryM : List Char → Option (α × Nat))
    (htry : ∀ s r len, tryM s = some (r, len) → len ≤ s.length) :
    ∀ (fuel : Nat) (s : List Char) (pos : Nat),
      List.Chain' (fun a b => a.2.2 ≤ b.2.1) (finditerAux tryM fuel s pos) := by
  intro fuel
  induction fuel with
  | zero => intro s pos; simp [finditerAux]
  | succ n ih =>
    intro s pos
    cases s with
    | nil => simp [finditerAux]
    | cons c rest =>
      rcases htm : tryM (c :: rest) with - | ⟨r, len⟩
      · rw [finditerAux, htm]
        exact ih rest (pos + 1)
      · rw [finditerAux, htm]
        refine List.chain'_cons'.mpr ⟨?_, ih _ _⟩
        intro y hy
        have hmem := List.mem_of_mem_head? hy
        have := finditerAux_bounds tryM htry n ((c :: rest).drop len) (pos + len) y hmem
        exact this.1

theorem areaPos_chain (content : List Char) :
    List.Chain' (fun a b => a.2 ≤ b.1) (areaPos content) := by
  have h := finditerAux_chain tryAreaMatch
    (fun s r len h => (tryAreaMatch_len s r len h).2) content.length content 0
  unfold areaPos findAreaMatches
  rw [List.map_map]
  exact (List.chain'_map _).mpr h

theorem areaPos_bounds (content : List Char) :
    ∀ m ∈ areaPos content, m.1 ≤ m.2 ∧ m.2 ≤ content.length := by
  intro m hm
  unfold areaPos findAreaMatches at hm
  rw [List.map_map] at hm
  obtain ⟨x, hx, hxm⟩ := List.mem_map.mp hm
  have := finditerAux_bounds tryAreaMatch
    (fun s r len h => (tryAreaMatch_len s r len h).2) content.length content 0 x hx
  subst hxm
  exact ⟨this.2.1, by simpa using this.2.2⟩

theorem levelPos_chain (t : List Char) :
    List.Chain' (fun a b => a.2 ≤ b.1) (levelPos t) := by
  have h := finditerAux_chain tryLevelMatch
    (fun s r len h => (tryLevelMatch_len s r len h).2) t.length t 0
  unfold levelPos findLevelMatches
  rw [List.map_map]
  exact (List.chain'_map _).mpr h

theorem levelPos_bounds (t : List Char) :
    ∀ m ∈ levelPos t, m.1 ≤ m.2 ∧ m.2 ≤ t.length := by
  intro m hm
  unfold levelPos findLevelMatches at hm
  rw [List.map_map] at hm
  obtain ⟨x, hx, hxm⟩ := List.mem_map.mp hm
  have := finditerAux_bounds tryLevelMatch
    (fun s r len h => (tryLevelMatch_len s r len h).2) t.length t 0 x hx
  subst hxm
  exact ⟨this.2.1, by simpa using this.2.2⟩

theorem headLeAll (l : List (Nat × Nat)) :
    ∀ (x : Nat × Nat), List.Chain' (fun s t => s.2 ≤ t.1) (x :: l) →
      (∀ s ∈ l, s.1 ≤ s.2) → ∀ y ∈ l, x.2 ≤ y.1 := by
  induction l with
  | nil => intro x _ _ y hy; simp at hy
  | cons z l ih =>
    intro x hch hb y hy
    have hxz : x.2 ≤ z.1 := (List.chain'_cons.mp hch).1
    rcases List.mem_cons.mp hy with rfl | hy'
    · exact hxz
    · have hz2 : z.1 ≤ z.2 := hb z (List.mem_cons_self z l)
      have := ih z (List.chain'_cons.mp hch).2
        (fun s hs => hb s (List.mem_cons_of_mem _ hs)) y hy'
      omega

theorem chainIntervalsPairwise :
    ∀ (l : List (Nat × Nat)), List.Chain' (fun s t => s.2 ≤ t.1) l →
      (∀ s ∈ l, s.1 ≤ s.2) → l.Pairwise (fun s t => s.2 ≤ t.1) := by
  intro l
  induction l with
  | nil => simp
  | cons x l ih =>
    intro hch hb
    refine List.pairwise_cons.mpr ⟨?_, ih hch.tail (fun s hs => hb s (List.mem_cons_of_mem _ hs))⟩
    exact headLeAll l x hch (fun s hs => hb s (List.mem_cons_of_mem _ hs))

theorem segmentSpansChain (L : Nat) :
    ∀ (ms : List (Nat × Nat)), List.Chain' (fun a b => a.2 ≤ b.1) ms →
      (∀ m ∈ ms, m.1 ≤ m.2) → (∀ m ∈ ms, m.2 ≤ L) →
      List.Chain' (fun s t => s.2 ≤ t.1) (segmentSpans L ms) ∧
      (∀ s ∈ segmentSpans L ms, s.1 ≤ s.2) := by
  intro ms
  induction ms with
  | nil => intro _ _ _; exact ⟨by simp [segmentSpans], by simp [segmentSpans]⟩
  | cons m rest ih =>
    intro hch hb1 hb2
    cases rest with
    | nil =>
      refine ⟨by simp [segmentSpans], ?_⟩
      intro s hs
      simp [segmentSpans] at hs
      subst hs
      exact hb2 m (List.mem_cons_self m [])
    | cons m2 r2 =>
      have hmm2 : m.2 ≤ m2.1 := (List.chain'_cons.mp hch).1
      have hrec := ih (List.chain'_cons.mp hch).2
        (fun x hx => hb1 x (List.mem_cons_of_mem _ hx))
        (fun x hx => hb2 x (List.mem_cons_of_mem _ hx))
      have hseg : segmentSpans L (m :: m2 :: r2) =
          (m.2, m2.1) :: segmentSpans L (m2 :: r2) := rfl
      constructor
      · rw [hseg]
        refine List.chain'_cons'.mpr ⟨?_, hrec.1⟩
        intro y hy
        have hymem := List.mem_of_mem_head? hy
        have hyeq : (segmentSpans L (m2 :: r2)).head? = some (m2.2, ((r2.head?.map Prod.fst).getD L)) := rfl
        rw [hyeq] at hy
        simp only [Option.mem_def, Option.some.injEq] at hy
        subst hy
        exact hb1 m2 (List.mem_cons_of_mem _ (List.mem_cons_self m2 r2))
      · rw [hseg]
        intro s hs
        rcases List.mem_cons.mp hs with rfl | hs'
        · exact hmm2
        · exact hrec.2 s hs'

theorem segmentCover (L : Nat) :
    ∀ (ms : List (Nat × Nat)),
      List.Chain' (fun a b => a.2 ≤ b.1) ms →
      (∀ m ∈ ms, m.1 ≤ m.2) →
      (∀ m ∈ ms, m.2 ≤ L) →
      ∀ m0, ms.head? = some m0 →
      ∀ p, ((∃ s ∈ segmentSpans L ms, s.1 ≤ p ∧ p < s.2) ∨
            (∃ m ∈ ms.tail, m.1 ≤ p ∧ p < m.2)) ↔ (m0.2 ≤ p ∧ p < L) := by
  intro ms
  induction ms with
  | nil => intro _ _ _ m0 h; simp at h
  | cons m rest ih =>
    intro hchain hb1 hb2 m0 hm0 p
    simp only [List.head?_cons, Option.some.injEq] at hm0
    subst hm0
    cases rest with
    | nil => simp [segmentSpans]
    | cons m2 r2 =>
      have hmm2 : m.2 ≤ m2.1 := (List.chain'_cons.mp hchain).1
      have h21 : m2.1 ≤ m2.2 := hb1 m2 (List.mem_cons_of_mem _ (List.mem_cons_self m2 r2))
      have h2L : m2.2 ≤ L := hb2 m2 (List.mem_cons_of_mem _ (List.mem_cons_self m2 r2))
      have ih2 := ih (List.chain'_cons.mp hchain).2
        (fun x hx => hb1 x (List.mem_cons_of_mem _ hx))
        (fun x hx => hb2 x (List.mem_cons_of_mem _ hx)) m2 rfl p
      have hseg : segmentSpans L (m :: m2 :: r2) =
          (m.2, m2.1) :: segmentSpans L (m2 :: r2) := rfl
      rw [hseg]
      simp only [List.tail_cons] at ih2 ⊢
      constructor
      · rintro (⟨s, hs, hsp⟩ | ⟨x, hx, hxp⟩)
        · rcases List.mem_cons.mp hs with rfl | hs'
          · simp only at hsp
            omega
          · have := ih2.mp (Or.inl ⟨s, hs', hsp⟩)
            omega
        · rcases List.mem_cons.mp hx with rfl | hx'
          · omega
          · have := ih2.mp (Or.inr ⟨x, hx', hxp⟩)
            omega
      · rintro ⟨hp1, hp2⟩
        by_cases hc1 : p < m2.1
        · exact Or.inl ⟨(m.2, m2.1), List.mem_cons_self _ _, hp1, hc1⟩
        · by_cases hc2 : p < m2.2
          · exact Or.inr ⟨m2, List.mem_cons_self m2 r2, by omega, hc2⟩
          · rcases ih2.mpr ⟨by omega, hp2⟩ with ⟨s, hs, hsp⟩ | ⟨x, hx, hxp⟩
            · exact Or.inl ⟨s, List.mem_cons_of_mem _ hs, hsp⟩
            · exact Or.inr ⟨x, List.mem_cons_of_mem _ hx, hxp⟩


/-- C4 counterexample: on the buffer with two Area headers the first
match ends at offset 10 and the buffer has length 21, yet offset 12
(inside the second header) is covered by no segmented span, so the union
of the spans does not reconstruct the portion of the buffer from the
first match's end to the buffer's end. -/
theorem C4_counterexample :
    (areaPos cexBuf).head? = some (0, 10) ∧ cexBuf.length = 21 ∧
    ¬ ((∃ s ∈ segmentSpans cexBuf.length (areaPos cexBuf), s.1 ≤ 12 ∧ 12 < s.2) ↔
       (10 ≤ 12 ∧ 12 < cexBuf.length)) := by
  refine ⟨by decide, by decide, ?_⟩
  intro h
  have := h.mpr (by decide)
  revert this
  decide

/-- C4 (amended): for every buffer and every match list produced by
either header grammar, the segmented spans are pairwise non-overlapping,
and their union together with the header intervals of every match after
the first exactly reconstructs the portion of the buffer from the first
match's end to the buffer's end. -/
theorem C4_amended (buf : List Char) (ms : List (Nat × Nat))
    (hms : ms = areaPos buf ∨ ms = levelPos buf) :
    List.Pairwise (fun s t => s.2 ≤ t.1) (segmentSpans buf.length ms) ∧
    ∀ m0, ms.head? = some m0 →
      ∀ p, ((∃ s ∈ segmentSpans buf.length ms, s.1 ≤ p ∧ p < s.2) ∨
            (∃ m ∈ ms.tail, m.1 ≤ p ∧ p < m.2)) ↔ (m0.2 ≤ p ∧ p < buf.length) := by
  have hch : List.Chain' (fun a b => a.2 ≤ b.1) ms := by
    rcases hms with rfl | rfl
    · exact areaPos_chain buf
    · exact levelPos_chain buf
  have hb : ∀ m ∈ ms, m.1 ≤ m.2 ∧ m.2 ≤ buf.length := by
    rcases hms with rfl | rfl
    · exact areaPos_bounds buf
    · exact levelPos_bounds buf
  have hsp := segmentSpansChain buf.length ms hch
    (fun m hm => (hb m hm).1) (fun m hm => (hb m hm).2)
  refine ⟨chainIntervalsPairwise _ hsp.1 hsp.2, ?_⟩
  intro m0 hm0 p
  exact segmentCover buf.length ms hch
    (fun m hm => (hb m hm).1) (fun m hm => (hb m hm).2) m0 hm0 p

/-- Witness for C4_amended at the two-header buffer: offset 12 sits in the
second header interval, and the amended coverage equivalence holds. -/
theorem C4_amended_witness :
    ((areaPos cexBuf = areaPos cexBuf ∨ areaPos cexBuf = levelPos cexBuf) ∧
     (areaPos cexBuf).head? = some (0, 10)) ∧
    (((∃ s ∈ segmentSpans cexBuf.length (areaPos cexBuf), s.1 ≤ 12 ∧ 12 < s.2) ∨
      (∃ m ∈ (areaPos cexBuf).tail, m.1 ≤ 12 ∧ 12 < m.2)) ↔
     (10 ≤ 12 ∧ 12 < cexBuf.length)) :=
  ⟨⟨Or.inl rfl, by decide⟩,
   (C4_amended cexBuf (areaPos cexBuf) (Or.inl rfl)).2 (0, 10) (by decide) 12⟩

/-- C2: for every enclosing length and every ordered match list (this is
the span computation applied at both the Area and the Level grain), the
span attributed to match i runs from that match's end offset to the next
match's start offset, and the span of the last match runs to the end of
the enclosing buffer. -/
theorem C2_span_attribution (L : Nat) (ms : List (Nat × Nat)) :
    (segmentSpans L ms).length = ms.length ∧
    ∀ i (h : i < ms.length),
      (segmentSpans L ms).get? i =
        some ((ms.get ⟨i, h⟩).2, ((ms.get? (i + 1)).map Prod.fst).getD L) := by
  refine ⟨segmentSpans_length L ms, ?_⟩
  induction ms with
  | nil => intro i h; exact absurd h (by simp)
  | cons m rest ih =>
    intro i h
    cases i with
    | zero =>
      cases rest with
      | nil => simp [segmentSpans]
      | cons m2 r2 => simp [segmentSpans]
    | succ n =>
      have h' : n < rest.length := Nat.lt_of_succ_lt_succ h
      have := ih n h'
      simpa [segmentSpans] using this

/-- Witness for C2_span_attribution on a concrete two-match list. -/
theorem C2_span_attribution_witness :
    (0 < ([((0 : Nat), (2 : Nat)), (3, 5)] : List (Nat × Nat)).length) ∧
    (segmentSpans 10 [((0 : Nat), (2 : Nat)), (3, 5)]).get? 0 = some (2, 3) :=
  ⟨by decide, by
    have h := (C2_span_attribution 10 [((0 : Nat), (2 : Nat)), (3, 5)]).2 0 (by decide)
    simpa using h⟩

theorem findAxis_nil (k : Nat) : findAxis k [] = none := rfl

theorem findAxis_cons (k : Nat) (x : Axis) (xs : List Axis) :
    findAxis k (x :: xs) = if x.id = k then some x else findAxis k xs := by
  unfold findAxis
  by_cases h : x.id = k
  · rw [if_pos h]
    rw [List.find?_cons_of_pos _ (by simp [h])]
  · rw [if_neg h]
    rw [List.find?_cons_of_neg _ (by simp [h])]

theorem appendToAxis_find (k n : Nat) (a : Area) :
    ∀ (acc : List Axis),
      findAxis k (appendToAxis n a acc) =
        if k = n then
          match findAxis n acc with
          | some y => some { y with areas := y.areas ++ [a] }
          | none => some { id := n, name := (r"Axis " ++ toString n).data, areas := [a] }
        else findAxis k acc
  | [] => by
    by_cases hk : k = n
    · subst hk
      simp [appendToAxis, findAxis_cons, findAxis_nil]
    · have hnk : ¬ (n = k) := fun h => hk h.symm
      simp [appendToAxis, findAxis_cons, findAxis_nil, hk, hnk]
  | x :: xs => by
    by_cases hxn : x.id = n
    · simp only [appendToAxis, if_pos hxn]
      by_cases hk : k = n
      · subst hk
        simp only [findAxis_cons]
        simp [hxn]
      · have hxnk : ¬ (x.id = k) := by rw [hxn]; exact fun h => hk h.symm
        simp only [findAxis_cons]
        simp [hxnk, hk]
    · simp only [appendToAxis, if_neg hxn]
      simp only [findAxis_cons]
      rw [appendToAxis_find k n a xs]
      by_cases hxk : x.id = k
      · have hk : ¬ (k = n) := fun h => hxn (hxk.trans h)
        simp [hxk, hk]
      · by_cases hk : k = n
        · subst hk
          simp [hxk, hxn]
        · simp [hxk, hk]

theorem appendToAxis_ids (n : Nat) (a : Area) :
    ∀ (acc : List Axis), (appendToAxis n a acc).map Axis.id =
      if n ∈ acc.map Axis.id then acc.map Axis.id else acc.map Axis.id ++ [n]
  | [] => by simp [appendToAxis]
  | x :: xs => by
    by_cases hxn : x.id = n
    · simp [appendToAxis, hxn]
    · simp only [appendToAxis, if_neg hxn, List.map_cons]
      rw [appendToAxis_ids n a xs]
      have hnx : ¬ (n = x.id) := fun h => hxn h.symm
      by_cases hmem : n ∈ xs.map Axis.id
      · rw [if_pos hmem, if_pos (by simp [List.mem_cons, hmem])]
      · rw [if_neg hmem, if_neg (by simp [List.mem_cons, hnx, hmem])]
        simp

theorem firstDedupFrom_congr :
    ∀ (l : List Nat) (s1 s2 : List Nat), (∀ a, a ∈ s1 ↔ a ∈ s2) →
      firstDedupFrom s1 l = firstDedupFrom s2 l
  | [], _, _, _ => rfl
  | x :: xs, s1, s2, h => by
    by_cases hx : x ∈ s1
    · simp only [firstDedupFrom, if_pos hx, if_pos ((h x).mp hx)]
      exact firstDedupFrom_congr xs s1 s2 h
    · simp only [firstDedupFrom, if_neg hx, if_neg (fun hh => hx ((h x).mpr hh))]
      exact congrArg (fun t => x :: t)
        (firstDedupFrom_congr xs (x :: s1) (x :: s2) (fun a => by simp [List.mem_cons, h a]))

theorem firstDedupFrom_facts :
    ∀ (l : List Nat) (seen : List Nat),
      (firstDedupFrom seen l).Nodup ∧ ∀ a ∈ firstDedupFrom seen l, a ∉ seen
  | [], seen => ⟨List.nodup_nil, by simp [firstDedupFrom]⟩
  | x :: xs, seen => by
    by_cases hx : x ∈ seen
    · simp only [firstDedupFrom, if_pos hx]
      exact firstDedupFrom_facts xs seen
    · simp only [firstDedupFrom, if_neg hx]
      have ih := firstDedupFrom_facts xs (x :: seen)
      refine ⟨List.nodup_cons.mpr ⟨?_, ih.1⟩, ?_⟩
      · intro hmem
        exact (ih.2 x hmem) (List.mem_cons_self x seen)
      · intro a ha
        rcases List.mem_cons.mp ha with rfl | ha'
        · exact hx
        · intro haseen
          exact (ih.2 a ha') (List.mem_cons_of_mem _ haseen)

theorem foldl_findAxis (k : Nat) :
    ∀ (l : List (Nat × Area)) (acc : List Axis),
      findAxis k (l.foldl (fun d p => appendToAxis p.1 p.2 d) acc) =
        match findAxis k acc with
        | some y => some { y with areas := y.areas ++ (l.filter (fun p => p.1 == k)).map Prod.snd }
        | none =>
          if k ∈ l.map Prod.fst then
            some { id := k, name := (r"Axis " ++ toString k).data,
                   areas := (l.filter (fun p => p.1 == k)).map Prod.snd }
          else none
  | [], acc => by
    cases h : findAxis k acc with
    | some y => simp [h]
    | none => simp [h]
  | p :: l', acc => by
    rw [List.foldl_cons, foldl_findAxis k l' (appendToAxis p.1 p.2 acc), appendToAxis_find]
    by_cases hk : k = p.1
    · rw [if_pos hk, ← hk]
      cases h : findAxis k acc with
      | some y =>
        have hbeq : (p.1 == k) = true := by simp [hk]
        simp [h, List.filter_cons, hbeq, List.append_assoc]
      | none =>
        have hbeq : (p.1 == k) = true := by simp [hk]
        have hmem : k ∈ (p :: l').map Prod.fst := by
          simp only [List.map_cons, List.mem_cons]
          exact Or.inl hk
        simp [h, List.filter_cons, hbeq, hmem]
        exact Or.inl hk
    · rw [if_neg hk]
      have hbeq : (p.1 == k) = false := by
        simp only [beq_eq_false_iff_ne, ne_eq]
        exact fun hh => hk hh.symm
      cases h : findAxis k acc with
      | some y => simp [h, List.filter_cons, hbeq]
      | none =>
        have hmem : (k ∈ (p :: l').map Prod.fst) ↔ k ∈ l'.map Prod.fst := by
          simp only [List.map_cons, List.mem_cons]
          constructor
          · rintro (h' | h')
            · exact absurd h' hk
            · exact h'
          · exact Or.inr
        simp [h, List.filter_cons, hbeq]
        exact if_congr hmem.symm rfl rfl

theorem foldl_ids :
    ∀ (l : List (Nat × Area)) (acc : List Axis),
      (l.foldl (fun d p => appendToAxis p.1 p.2 d) acc).map Axis.id =
        acc.map Axis.id ++ firstDedupFrom (acc.map Axis.id) (l.map Prod.fst)
  | [], acc => by simp [firstDedupFrom]
  | p :: l', acc => by
    rw [List.foldl_cons, foldl_ids l' (appendToAxis p.1 p.2 acc), appendToAxis_ids]
    by_cases hmem : p.1 ∈ acc.map Axis.id
    · rw [if_pos hmem]
      simp only [List.map_cons, firstDedupFrom, if_pos hmem]
    · rw [if_neg hmem]
      simp only [List.map_cons, firstDedupFrom, if_neg hmem]
      rw [firstDedupFrom_congr (l'.map Prod.fst) (acc.map Axis.id ++ [p.1])
        (p.1 :: acc.map Axis.id) (fun a => by simp [List.mem_append, List.mem_cons, or_comm])]
      simp

theorem findAxis_self :
    ∀ (d : List Axis), (d.map Axis.id).Nodup → ∀ x ∈ d, findAxis x.id d = some x
  | [], _, x, hx => absurd hx (by simp)
  | y :: ys, hnd, x, hx => by
    rcases List.mem_cons.mp hx with rfl | hx'
    · rw [findAxis_cons]
      simp
    · rw [findAxis_cons]
      rw [List.map_cons] at hnd
      have hnd' := List.nodup_cons.mp hnd
      have hne : ¬ (y.id = x.id) := fun h => hnd'.1 (h ▸ List.mem_map_of_mem Axis.id hx')
      rw [if_neg hne]
      exact findAxis_self ys hnd'.2 x hx'

theorem zipMapFst {α β γ : Type} (f : α → γ) :
    ∀ (A : List α) (B : List β), A.length ≤ B.length →
      ((A.zip B).map (fun p => f p.1)) = A.map f
  | [], _, _ => rfl
  | a :: A', [], h => by simp at h
  | a :: A', b :: B', h => by
    simp only [List.zip_cons_cons, List.map_cons]
    rw [zipMapFst f A' B' (by simpa using h)]

theorem areaEntries_fst (content : List Char) :
    (areaEntries content).map Prod.fst = (findAreaMatches content).map AreaM.axisNum := by
  unfold areaEntries
  rw [List.map_map]
  have hlen : (findAreaMatches content).length ≤
      (segmentSpans content.length (areaPos content)).length := by
    rw [segmentSpans_length]
    unfold areaPos
    rw [List.length_map]
  exact zipMapFst AreaM.axisNum _ _ hlen

theorem parse_ids (content : List Char) :
    (parse_drd_content content).map Axis.id =
      firstDedup ((areaEntries content).map Prod.fst) := by
  unfold parse_drd_content firstDedup
  rw [foldl_ids]
  simp

theorem parse_areas_eq (content : List Char) :
    ∀ x ∈ parse_drd_content content,
      x.id ∈ (areaEntries content).map Prod.fst ∧
      x.areas = ((areaEntries content).filter (fun p => p.1 == x.id)).map Prod.snd := by
  intro x hx
  have hnodup : ((parse_drd_content content).map Axis.id).Nodup := by
    rw [parse_ids]
    exact (firstDedupFrom_facts _ _).1
  have hfind : findAxis x.id (parse_drd_content content) = some x :=
    findAxis_self _ hnodup x hx
  unfold parse_drd_content at hfind
  rw [foldl_findAxis] at hfind
  simp only [findAxis_nil] at hfind
  by_cases hmem : x.id ∈ (areaEntries content).map Prod.fst
  · rw [if_pos hmem] at hfind
    have heq := Option.some.inj hfind
    exact ⟨hmem, (congrArg Axis.areas heq).symm⟩
  · rw [if_neg hmem] at hfind
    exact absurd hfind (by simp)

/-- C3: the assembler produces exactly one Axis per distinct numeric id
among the outer matches, in first-occurrence order of the ids, and each
Axis carries, in encounter order, exactly the Areas of the outer matches
bearing its id. -/
theorem C3_axis_dedup (content : List Char) :
    (parse_drd_content content).map Axis.id =
      firstDedup ((findAreaMatches content).map AreaM.axisNum) ∧
    ∀ x ∈ parse_drd_content content,
      x.areas = ((areaEntries content).filter (fun p => p.1 == x.id)).map Prod.snd := by
  constructor
  · rw [parse_ids, areaEntries_fst]
  · intro x hx
    exact (parse_areas_eq content x hx).2

/-- Witness for C3_axis_dedup at a concrete buffer and Axis. -/
theorem C3_axis_dedup_witness :
    wax ∈ parse_drd_content wbuf ∧
    wax.areas = ((areaEntries wbuf).filter (fun p => p.1 == wax.id)).map Prod.snd :=
  ⟨by decide, (C3_axis_dedup wbuf).2 wax (by decide)⟩

/-- C10: every Axis entry in the parser's result has a non-empty list of
Areas. -/
theorem C10_axis_areas_nonempty (content : List Char) :
    ∀ x ∈ parse_drd_content content, x.areas ≠ [] := by
  intro x hx
  obtain ⟨hmem, hareas⟩ := parse_areas_eq content x hx
  obtain ⟨p, hp, hpeq⟩ := List.mem_map.mp hmem
  rw [hareas]
  intro hnil
  have hpf : p ∈ (areaEntries content).filter (fun q => q.1 == x.id) :=
    List.mem_filter.mpr ⟨hp, by simp [hpeq]⟩
  have hms : Prod.snd p ∈ ((areaEntries content).filter (fun q => q.1 == x.id)).map Prod.snd :=
    List.mem_map_of_mem Prod.snd hpf
  rw [hnil] at hms
  exact absurd hms (List.not_mem_nil _)

/-- Witness for C10_axis_areas_nonempty at a concrete buffer and Axis. -/
theorem C10_axis_areas_nonempty_witness :
    wax ∈ parse_drd_content wbuf ∧ wax.areas ≠ [] :=
  ⟨by decide, C10_axis_areas_nonempty wbuf wax (by decide)⟩

theorem collapseAuxMem :
    ∀ (s : List Char) (b : Bool) (c : Char),
      c ∈ collapseAux b s → isSpaceCh c = true → c = ' '
  | [], b, c, hc => by simp [collapseAux] at hc
  | d :: rest, b, c, hc => by
    by_cases hd : isSpaceCh d = true
    · cases b with
      | true =>
        rw [show collapseAux true (d :: rest) = collapseAux true rest from by
          simp [collapseAux, hd]] at hc
        exact collapseAuxMem rest true c hc
      | false =>
        rw [show collapseAux false (d :: rest) = ' ' :: collapseAux true rest from by
          simp [collapseAux, hd]] at hc
        rcases List.mem_cons.mp hc with rfl | hc'
        · exact fun _ => rfl
        · exact collapseAuxMem rest true c hc'
    · have hdf : isSpaceCh d = false := by simpa using hd
      rw [show collapseAux b (d :: rest) = d :: collapseAux false rest from by
        cases b <;> simp [collapseAux, hdf]] at hc
      rcases List.mem_cons.mp hc with rfl | hc'
      · intro hcs
        rw [hdf] at hcs
        exact absurd hcs (by simp)
      · exact collapseAuxMem rest false c hc'

theorem collapseAuxChain :
    ∀ (s : List Char),
      (List.Chain' (fun a b => ¬(isSpaceCh a = true ∧ isSpaceCh b = true)) (collapseAux false s) ∧
       List.Chain' (fun a b => ¬(isSpaceCh a = true ∧ isSpaceCh b = true)) (collapseAux true s)) ∧
      (∀ c, (collapseAux true s).head? = some c → isSpaceCh c = false)
  | [] => ⟨⟨List.chain'_nil, List.chain'_nil⟩, by simp [collapseAux]⟩
  | d :: rest => by
    have ih := collapseAuxChain rest
    by_cases hd : isSpaceCh d = true
    · have hf : collapseAux false (d :: rest) = ' ' :: collapseAux true rest := by
        simp [collapseAux, hd]
      have htt : collapseAux true (d :: rest) = collapseAux true rest := by
        simp [collapseAux, hd]
      refine ⟨⟨?_, ?_⟩, ?_⟩
      · rw [hf]
        refine List.chain'_cons'.mpr ⟨?_, ih.1.2⟩
        intro y hy
        have hyns := ih.2 y hy
        rintro ⟨-, hy2⟩
        rw [hyns] at hy2
        exact absurd hy2 (by simp)
      · rw [htt]
        exact ih.1.2
      · rw [htt]
        exact ih.2
    · have hdf : isSpaceCh d = false := by simpa using hd
      have hf : collapseAux false (d :: rest) = d :: collapseAux false rest := by
        simp [collapseAux, hdf]
      have htt : collapseAux true (d :: rest) = d :: collapseAux false rest := by
        simp [collapseAux, hdf]
      have hchain : List.Chain' (fun a b => ¬(isSpaceCh a = true ∧ isSpaceCh b = true))
          (d :: collapseAux false rest) := by
        refine List.chain'_cons'.mpr ⟨?_, ih.1.1⟩
        intro y hy
        rintro ⟨hd2, -⟩
        rw [hdf] at hd2
        exact absurd hd2 (by simp)
      refine ⟨⟨by rw [hf]; exact hchain, by rw [htt]; exact hchain⟩, ?_⟩
      intro c hc
      rw [htt] at hc
      simp only [List.head?_cons, Option.some.injEq] at hc
      rw [← hc]
      exact hdf

theorem collapseAuxNeNil :
    ∀ (s : List Char) (b : Bool), (∃ c ∈ s, isSpaceCh c = false) → collapseAux b s ≠ []
  | [], _, h => by simp at h
  | d :: rest, b, h => by
    by_cases hd : isSpaceCh d = true
    · obtain ⟨c, hc, hcf⟩ := h
      have hcr : c ∈ rest := by
        rcases List.mem_cons.mp hc with rfl | h'
        · rw [hd] at hcf
          exact absurd hcf (by simp)
        · exact h'
      cases b with
      | true =>
        rw [show collapseAux true (d :: rest) = collapseAux true rest from by
          simp [collapseAux, hd]]
        exact collapseAuxNeNil rest true ⟨c, hcr, hcf⟩
      | false =>
        rw [show collapseAux false (d :: rest) = ' ' :: collapseAux true rest from by
          simp [collapseAux, hd]]
        simp
    · have hdf : isSpaceCh d = false := by simpa using hd
      rw [show collapseAux b (d :: rest) = d :: collapseAux false rest from by
        cases b <;> simp [collapseAux, hdf]]
      simp

theorem consGetLastSome : ∀ (x : Char) (l : List Char), ∃ a, (x :: l).getLast? = some a
  | x, [] => ⟨x, rfl⟩
  | x, y :: r => by
    obtain ⟨a, ha⟩ := consGetLastSome y r
    exact ⟨a, by rw [List.getLast?_cons_cons]; exact ha⟩

theorem getLastMem : ∀ (l : List Char) (a : Char), l.getLast? = some a → a ∈ l
  | [], a, h => by simp at h
  | [x], a, h => by
    simp only [List.getLast?_singleton, Option.some.injEq] at h
    rw [← h]
    exact List.mem_cons_self x []
  | x :: y :: r, a, h => by
    rw [List.getLast?_cons_cons] at h
    exact List.mem_cons_of_mem x (getLastMem (y :: r) a h)

theorem getLastConsNe (x : Char) (l : List Char) (h : l ≠ []) :
    (x :: l).getLast? = l.getLast? := by
  cases l with
  | nil => exact absurd rfl h
  | cons y r => exact List.getLast?_cons_cons

theorem dropWhileHead : ∀ (l : List Char) (c : Char),
    (l.dropWhile isSpaceCh).head? = some c → isSpaceCh c = false
  | [], c, h => by simp at h
  | x :: xs, c, h => by
    by_cases hx : isSpaceCh x = true
    · rw [List.dropWhile_cons_of_pos hx] at h
      exact dropWhileHead xs c h
    · rw [List.dropWhile_cons_of_neg hx] at h
      simp only [List.head?_cons, Option.some.injEq] at h
      rw [← h]
      simpa using hx

theorem suffixGetLast (l1 l2 : List Char) (h : l1 <:+ l2) (hne : l1 ≠ []) :
    l1.getLast? = l2.getLast? := by
  obtain ⟨pre, rfl⟩ := h
  exact (List.getLast?_append_of_ne_nil pre hne).symm

theorem strip_head (s : List Char) (c : Char) :
    (strip s).head? = some c → isSpaceCh c = false := by
  unfold strip
  intro h
  rw [List.head?_reverse] at h
  have hne : (s.dropWhile isSpaceCh).reverse.dropWhile isSpaceCh ≠ [] := by
    intro hnil
    rw [hnil] at h
    simp at h
  have hsuf : (s.dropWhile isSpaceCh).reverse.dropWhile isSpaceCh <:+
      (s.dropWhile isSpaceCh).reverse := List.dropWhile_suffix _
  rw [suffixGetLast _ _ hsuf hne] at h
  rw [List.getLast?_reverse] at h
  exact dropWhileHead s c h

theorem strip_last (s : List Char) (c : Char) :
    (strip s).getLast? = some c → isSpaceCh c = false := by
  unfold strip
  intro h
  rw [List.getLast?_reverse] at h
  exact dropWhileHead _ c h

theorem collapseAuxLast :
    ∀ (s : List Char) (b : Bool),
      (∀ c, s.getLast? = some c → isSpaceCh c = false) →
      ∀ c, (collapseAux b s).getLast? = some c → isSpaceCh c = false
  | [], b, _, c => by simp [collapseAux]
  | [d], b, hyp, c => by
    have hd : isSpaceCh d = false := hyp d rfl
    have hx : collapseAux b [d] = [d] := by
      cases b <;> simp [collapseAux, hd]
    rw [hx]
    intro hc
    simp only [List.getLast?_singleton, Option.some.injEq] at hc
    rw [← hc]
    exact hd
  | d :: e :: rest, b, hyp, c => by
    have hyp' : ∀ c, (e :: rest).getLast? = some c → isSpaceCh c = false := by
      intro c hc
      exact hyp c (by rw [List.getLast?_cons_cons]; exact hc)
    obtain ⟨lc, hlc⟩ := consGetLastSome e rest
    have hne : ∃ x ∈ e :: rest, isSpaceCh x = false :=
      ⟨lc, getLastMem _ lc hlc, hyp' lc hlc⟩
    by_cases hd : isSpaceCh d = true
    · cases b with
      | false =>
        rw [show collapseAux false (d :: e :: rest) = ' ' :: collapseAux true (e :: rest) from by
          simp [collapseAux, hd]]
        have hY : collapseAux true (e :: rest) ≠ [] := collapseAuxNeNil _ _ hne
        intro hc
        rw [getLastConsNe ' ' _ hY] at hc
        exact collapseAuxLast (e :: rest) true hyp' c hc
      | true =>
        rw [show collapseAux true (d :: e :: rest) = collapseAux true (e :: rest) from by
          simp [collapseAux, hd]]
        exact collapseAuxLast (e :: rest) true hyp' c
    · have hdf : isSpaceCh d = false := by simpa using hd
      rw [show collapseAux b (d :: e :: rest) = d :: collapseAux false (e :: rest) from by
        cases b <;> simp [collapseAux, hdf]]
      have hY : collapseAux false (e :: rest) ≠ [] := collapseAuxNeNil _ _ hne
      intro hc
      rw [getLastConsNe d _ hY] at hc
      exact collapseAuxLast (e :: rest) false hyp' c hc

theorem normalizeDescGood (u : List Char) :
    ('\n' ∉ normalizeDesc u) ∧
    (∀ c ∈ normalizeDesc u, isSpaceCh c = true → c = ' ') ∧
    List.Chain' (fun a b => ¬(isSpaceCh a = true ∧ isSpaceCh b = true)) (normalizeDesc u) ∧
    (∀ c, (normalizeDesc u).head? = some c → isSpaceCh c = false) ∧
    (∀ c, (normalizeDesc u).getLast? = some c → isSpaceCh c = false) := by
  refine ⟨?_, ?_, ?_, ?_, ?_⟩
  · intro hmem
    have := collapseAuxMem _ false '\n' hmem (by decide)
    exact absurd this (by decide)
  · exact fun c hc => collapseAuxMem _ false c hc
  · exact (collapseAuxChain (strip (replaceNl u))).1.1
  · unfold normalizeDesc
    cases ht : strip (replaceNl u) with
    | nil => simp [collapseAux]
    | cons d rest =>
      have hd : isSpaceCh d = false := strip_head (replaceNl u) d (by rw [ht]; rfl)
      rw [show collapseAux false (d :: rest) = d :: collapseAux false rest from by
        simp [collapseAux, hd]]
      intro c hc
      simp only [List.head?_cons, Option.some.injEq] at hc
      rw [← hc]
      exact hd
  · exact collapseAuxLast (strip (replaceNl u)) false (strip_last (replaceNl u))

theorem collapseId :
    ∀ (t : List Char),
      List.Chain' (fun a b => ¬(isSpaceCh a = true ∧ isSpaceCh b = true)) t →
      (∀ c ∈ t, isSpaceCh c = true → c = ' ') →
      collapseAux false t = t ∧
      ((∀ c, t.head? = some c → isSpaceCh c = false) → collapseAux true t = t)
  | [], _, _ => ⟨rfl, fun _ => rfl⟩
  | c :: rest, hch, hws => by
    have hchr : List.Chain' (fun a b => ¬(isSpaceCh a = true ∧ isSpaceCh b = true)) rest :=
      (List.chain'_cons'.mp hch).2
    have hwsr : ∀ x ∈ rest, isSpaceCh x = true → x = ' ' :=
      fun x hx => hws x (List.mem_cons_of_mem c hx)
    have ih := collapseId rest hchr hwsr
    by_cases hcsp : isSpaceCh c = true
    · have hceq : c = ' ' := hws c (List.mem_cons_self c rest) hcsp
      constructor
      · rw [show collapseAux false (c :: rest) = ' ' :: collapseAux true rest from by
          simp [collapseAux, hcsp]]
        rw [← hceq]
        congr 1
        apply ih.2
        intro e he
        have hr := (List.chain'_cons'.mp hch).1 e he
        cases h2 : isSpaceCh e with
        | true => exact absurd ⟨hcsp, h2⟩ hr
        | false => rfl
      · intro hhead
        have := hhead c rfl
        rw [hcsp] at this
        exact absurd this (by simp)
    · have hcf : isSpaceCh c = false := by simpa using hcsp
      have hx : collapseAux false (c :: rest) = c :: collapseAux false rest := by
        simp [collapseAux, hcf]
      have hx2 : collapseAux true (c :: rest) = c :: collapseAux false rest := by
        simp [collapseAux, hcf]
      exact ⟨by rw [hx, ih.1], fun _ => by rw [hx2, ih.1]⟩

theorem appendToAxisAreasMem :
    ∀ (acc : List Axis) (n : Nat) (a : Area) (y : Axis), y ∈ appendToAxis n a acc →
      ∀ ar ∈ y.areas, (∃ z ∈ acc, ar ∈ z.areas) ∨ ar = a
  | [], n, a, y, hy, ar, har => by
    simp only [appendToAxis, List.mem_singleton] at hy
    subst hy
    simp only at har
    rcases List.mem_singleton.mp har with rfl
    exact Or.inr rfl
  | x :: xs, n, a, y, hy, ar, har => by
    by_cases hxn : x.id = n
    · simp only [appendToAxis, if_pos hxn] at hy
      rcases List.mem_cons.mp hy with rfl | hy'
      · simp only at har
        rcases List.mem_append.mp har with h1 | h1
        · exact Or.inl ⟨x, List.mem_cons_self x xs, h1⟩
        · rcases List.mem_singleton.mp h1 with rfl
          exact Or.inr rfl
      · exact Or.inl ⟨y, List.mem_cons_of_mem x hy', har⟩
    · simp only [appendToAxis, if_neg hxn] at hy
      rcases List.mem_cons.mp hy with rfl | hy'
      · exact Or.inl ⟨y, List.mem_cons_self y xs, har⟩
      · rcases appendToAxisAreasMem xs n a y hy' ar har with ⟨z, hz, hzar⟩ | h
        · exact Or.inl ⟨z, List.mem_cons_of_mem x hz, hzar⟩
        · exact Or.inr h

theorem foldlAreasMem :
    ∀ (l : List (Nat × Area)) (acc : List Axis) (y : Axis),
      y ∈ l.foldl (fun d p => appendToAxis p.1 p.2 d) acc →
      ∀ ar ∈ y.areas, (∃ z ∈ acc, ar ∈ z.areas) ∨ ar ∈ l.map Prod.snd
  | [], acc, y, hy, ar, har => Or.inl ⟨y, hy, har⟩
  | p :: l', acc, y, hy, ar, har => by
    rw [List.foldl_cons] at hy
    rcases foldlAreasMem l' (appendToAxis p.1 p.2 acc) y hy ar har with ⟨z, hz, hzar⟩ | h
    · rcases appendToAxisAreasMem acc p.1 p.2 z hz ar hzar with ⟨w, hw, hwar⟩ | heq
      · exact Or.inl ⟨w, hw, hwar⟩
      · refine Or.inr ?_
        rw [List.map_cons, heq]
        exact List.mem_cons_self _ _
    · refine Or.inr ?_
      rw [List.map_cons]
      exact List.mem_cons_of_mem _ h

theorem parseAreaFromEntry (content : List Char) :
    ∀ x ∈ parse_drd_content content, ∀ ar ∈ x.areas,
      ar ∈ (areaEntries content).map Prod.snd := by
  intro x hx ar har
  unfold parse_drd_content at hx
  rcases foldlAreasMem (areaEntries content) [] x hx ar har with ⟨z, hz, -⟩ | h
  · exact absurd hz (List.not_mem_nil z)
  · exact h

theorem entryLevels (content : List Char) :
    ∀ ar ∈ (areaEntries content).map Prod.snd, ∃ t, ar.levels = parseLevels t := by
  intro ar har
  obtain ⟨p, hp, hpeq⟩ := List.mem_map.mp har
  unfold areaEntries at hp
  obtain ⟨q, hq, hqeq⟩ := List.mem_map.mp hp
  refine ⟨sliceBuf content q.2.1 q.2.2, ?_⟩
  rw [← hpeq, ← hqeq]

theorem parseLevelsDesc (t : List Char) :
    ∀ lv ∈ parseLevels t, ∃ u, lv.description = normalizeDesc u := by
  intro lv hlv
  unfold parseLevels at hlv
  obtain ⟨q, hq, hqeq⟩ := List.mem_map.mp hlv
  exact ⟨sliceBuf t q.2.1 q.2.2, by rw [← hqeq]⟩

/-- C5: every Level description in the parser's output contains no
newline, every whitespace character in it is a single plain space, no two
consecutive characters are both whitespace, and it neither starts nor ends
with a whitespace character. -/
theorem C5_description_clean (content : List Char) :
    ∀ x ∈ parse_drd_content content, ∀ ar ∈ x.areas, ∀ lv ∈ ar.levels,
      ('\n' ∉ lv.description) ∧
      (∀ c ∈ lv.description, isSpaceCh c = true → c = ' ') ∧
      List.Chain' (fun a b => ¬(isSpaceCh a = true ∧ isSpaceCh b = true)) lv.description ∧
      (∀ c, lv.description.head? = some c → isSpaceCh c = false) ∧
      (∀ c, lv.description.getLast? = some c → isSpaceCh c = false) := by
  intro x hx ar har lv hlv
  have har' := parseAreaFromEntry content x hx ar har
  obtain ⟨t, ht⟩ := entryLevels content ar har'
  rw [ht] at hlv
  obtain ⟨u, hu⟩ := parseLevelsDesc t lv hlv
  rw [hu]
  exact normalizeDescGood u

/-- Witness for C5_description_clean at a concrete buffer. -/
theorem C5_description_clean_witness :
    (wax ∈ parse_drd_content wbuf ∧ war ∈ wax.areas ∧ wlv ∈ war.levels) ∧
    (('\n' ∉ wlv.description) ∧
     (∀ c ∈ wlv.description, isSpaceCh c = true → c = ' ') ∧
     List.Chain' (fun a b => ¬(isSpaceCh a = true ∧ isSpaceCh b = true)) wlv.description ∧
     (∀ c, wlv.description.head? = some c → isSpaceCh c = false) ∧
     (∀ c, wlv.description.getLast? = some c → isSpaceCh c = false)) :=
  ⟨⟨by decide, by decide, by decide⟩,
   C5_description_clean wbuf wax (by decide) war (by decide) wlv (by decide)⟩

/-- C6: the description normalization is idempotent. -/
theorem C6_normalization_idempotent (s : List Char) :
    normalizeDesc (normalizeDesc s) = normalizeDesc s := by
  have hg := normalizeDescGood s
  have h1 : replaceNl (normalizeDesc s) = normalizeDesc s := by
    unfold replaceNl
    have hid : ∀ c ∈ normalizeDesc s, (if c = '\n' then ' ' else c) = c := by
      intro c hc
      rw [if_neg]
      intro hceq
      subst hceq
      exact hg.1 hc
    calc (normalizeDesc s).map (fun c => if c = '\n' then ' ' else c)
        = (normalizeDesc s).map id := List.map_congr_left hid
      _ = normalizeDesc s := List.map_id _
  have h2 : strip (replaceNl (normalizeDesc s)) = normalizeDesc s := by
    rw [h1]
    unfold strip
    have hfront : (normalizeDesc s).dropWhile isSpaceCh = normalizeDesc s := by
      cases hd : normalizeDesc s with
      | nil => rfl
      | cons c rest =>
        have hc := hg.2.2.2.1 c (by rw [hd]; rfl)
        rw [List.dropWhile_cons_of_neg (by simp [hc])]
    rw [hfront]
    have hback : (normalizeDesc s).reverse.dropWhile isSpaceCh = (normalizeDesc s).reverse := by
      cases hr : (normalizeDesc s).reverse with
      | nil => rfl
      | cons c rest =>
        have hlast : (normalizeDesc s).getLast? = some c := by
          rw [← List.head?_reverse, hr]
          rfl
        have hc := hg.2.2.2.2 c hlast
        rw [List.dropWhile_cons_of_neg (by simp [hc])]
    rw [hback, List.reverse_reverse]
  have h3 : collapseAux false (normalizeDesc s) = normalizeDesc s :=
    (collapseId (normalizeDesc s) hg.2.2.1 hg.2.1).1
  show collapseAux false (strip (replaceNl (normalizeDesc s))) = normalizeDesc s
  rw [h2, h3]

/-- C1: parsing the concrete scenario buffer yields exactly one Axis with
id 1 whose areas, in order, are Area 1A named Processes with its two
levels and Area 1B named Other with its single level. -/
theorem C1_concrete_scenario :
    parse_drd_content c1Buf =
    [{ id := 1, name := "Axis 1".data,
       areas :=
        [{ id := "1A".data, name := "Processes".data,
           levels :=
            [{ level := 1, title := "Basic".data, description := "some text".data },
             { level := 2, title := "Advanced".data, description := "more text".data }] },
         { id := "1B".data, name := "Other".data,
           levels := [{ level := 1, title := "X".data, description := "text".data }] }] }] := by
  decide

/-- C7: an empty buffer parses to the empty Axis list, any buffer with no
outer match parses to the empty Axis list, and a span with no inner match
yields an empty Level list; none of these is an error. -/
theorem C7_degenerate_inputs :
    parse_drd_content [] = [] ∧
    (∀ content : List Char, findAreaMatches content = [] → parse_drd_content content = []) ∧
    (∀ t : List Char, findLevelMatches t = [] → parseLevels t = []) := by
  refine ⟨rfl, ?_, ?_⟩
  · intro content h
    unfold parse_drd_content areaEntries areaPos
    rw [h]
    rfl
  · intro t h
    unfold parseLevels levelPos
    rw [h]
    rfl

/-- Witness for C7_degenerate_inputs at concrete headerless inputs. -/
theorem C7_degenerate_inputs_witness :
    (findAreaMatches noHeaderBuf = [] ∧ parse_drd_content noHeaderBuf = []) ∧
    (findLevelMatches noLevelText = [] ∧ parseLevels noLevelText = []) :=
  ⟨⟨by decide, C7_degenerate_inputs.2.1 noHeaderBuf (by decide)⟩,
   ⟨by decide, C7_degenerate_inputs.2.2 noLevelText (by decide)⟩⟩

/-- C8: the Name Enricher keeps the length of the Axis list, keeps every
id and areas field, renames each Axis whose id is in the mapping to the
mapped name, and leaves the name of each Axis with an unmapped id
unchanged. -/
theorem C8_name_enricher (names : List (Nat × List Char)) (data : List Axis) :
    (applyAxisNames names data).length = data.length ∧
    ∀ i x, data.get? i = some x →
      ∃ r, (applyAxisNames names data).get? i = some r ∧
        r.id = x.id ∧ r.areas = x.areas ∧
        (∀ n, names.lookup x.id = some n → r.name = n) ∧
        (names.lookup x.id = none → r.name = x.name) := by
  constructor
  · exact List.length_map _ _
  · intro i x hx
    cases h : names.lookup x.id with
    | some n =>
      refine ⟨{ x with name := n }, ?_, rfl, rfl, ?_, ?_⟩
      · unfold applyAxisNames
        rw [List.get?_map, hx]
        simp [h]
      · intro n' hn'
        exact Option.some.inj hn'
      · intro hn'
        cases hn'
    | none =>
      refine ⟨x, ?_, rfl, rfl, ?_, fun _ => rfl⟩
      · unfold applyAxisNames
        rw [List.get?_map, hx]
        simp [h]
      · intro n' hn'
        cases hn'

/-- Witness for C8_name_enricher: an Axis with mapped id 1 gets the
mapped name while keeping id and areas. -/
theorem C8_name_enricher_witness :
    ([wax].get? 0 = some wax) ∧
    ∃ r, (applyAxisNames c8names [wax]).get? 0 = some r ∧
      r.id = wax.id ∧ r.areas = wax.areas ∧
      (∀ n, c8names.lookup wax.id = some n → r.name = n) ∧
      (c8names.lookup wax.id = none → r.name = wax.name) :=
  ⟨rfl, (C8_name_enricher c8names [wax]).2 0 wax rfl⟩

/-- C9 counterexample: the static axis-name table does not have 10
entries. -/
theorem C9_counterexample : ¬ (axis_names.length = 10) := by decide

/-- C9 (amended): the static axis-name table applied by the Name Enricher
contains exactly 7 entries. -/
theorem C9_table_has_seven_entries : axis_names.length = 7 := by decide
